import Mathlib

/-!
Verification of the editable-grid reconciliation core of the
inventory-tracker application (src/streamlit_app.py).

The embedding models, faithfully to the Python source:

* the `repairs` table as a `Store` (a list of rows kept in rowid order,
  plus the AUTOINCREMENT counter);
* `update_data(conn, df, changes)` as `update_data`, including the exact
  order in which the SQL statements are issued (UPDATE block, then INSERT
  block, then DELETE block, then `conn.commit()`), position resolution
  against the snapshot dataframe `df`, and sqlite transaction semantics:
  statements apply to an uncommitted pending state that becomes the
  committed (durable, externally observable) state only at `conn.commit()`;
  an exception propagates out before the commit line is reached;
* `load_data(conn)` as `load_data`, including its `except` branch that
  catches store errors and returns an empty dataframe;
* the balance-sheet save path `update_balance_sheet_data` over the
  `Assets`, `Liabilities` and `Equity` tables.

Store-operation failures (sqlite errors) are modelled by fault injection: a
parameter `failOn : Op → Option DbError` decides which issued statement, if
any, raises.
-/

namespace InventoryTracker

/-- Dynamic sqlite cell values. NULL, TEXT, REAL and INTEGER are the storage
classes occurring in the repairs schema. REAL payloads are opaque to the
reconciliation logic (it never computes with them), so they are carried as
scaled integers. -/
inductive Val where
  | null : Val
  | text : String → Val
  | real : Int → Val
  | int : Int → Val
deriving DecidableEq, Repr

/-- The eight non-identity columns of the `repairs` table
(`CREATE TABLE repairs` in streamlit_app.py). -/
structure Fields where
  item_name : Val
  price : Val
  labor_cost : Val
  parts_cost : Val
  units_used : Val
  units_left : Val
  reorder_point : Val
  description : Val
deriving DecidableEq, Repr

/-- A persisted row: the AUTOINCREMENT integer primary key plus the eight
named columns. -/
structure Row where
  id : Nat
  fields : Fields
deriving DecidableEq, Repr

/-- A partial assignment of the eight editable columns; `none` means the
column is absent from the mapping. The `id` column has no slot here because
the data editor is rendered with `disabled=["id"]`, so neither an
edited-cells delta nor an added row can carry an `id` value. -/
structure Delta where
  item_name : Option Val
  price : Option Val
  labor_cost : Option Val
  parts_cost : Option Val
  units_used : Option Val
  units_left : Option Val
  reorder_point : Option Val
  description : Option Val
deriving DecidableEq, Repr

/-- Python `row_dict.update(delta)`: columns present in the delta replace
the snapshot values, absent columns keep the snapshot values. -/
def mergeFields (f : Fields) (d : Delta) : Fields :=
  { item_name := d.item_name.getD f.item_name
    price := d.price.getD f.price
    labor_cost := d.labor_cost.getD f.labor_cost
    parts_cost := d.parts_cost.getD f.parts_cost
    units_used := d.units_used.getD f.units_used
    units_left := d.units_left.getD f.units_left
    reorder_point := d.reorder_point.getD f.reorder_point
    description := d.description.getD f.description }

/-- Python `defaultdict(lambda: None, row)` feeding the INSERT statement: a
column absent from an added row is bound to NULL, never to 0 or to the
empty string. -/
def addedToFields (d : Delta) : Fields :=
  { item_name := d.item_name.getD Val.null
    price := d.price.getD Val.null
    labor_cost := d.labor_cost.getD Val.null
    parts_cost := d.parts_cost.getD Val.null
    units_used := d.units_used.getD Val.null
    units_left := d.units_left.getD Val.null
    reorder_point := d.reorder_point.getD Val.null
    description := d.description.getD Val.null }

/-- One SQL data statement issued by `update_data`:
`UPDATE repairs SET <all eight columns> WHERE id = :id` carrying a full
merged row, `INSERT INTO repairs (<the eight columns, id omitted>)`, or
`DELETE FROM repairs WHERE id = :id`. -/
inductive Op where
  | update : Row → Op
  | insert : Fields → Op
  | delete : Nat → Op
deriving DecidableEq, Repr

/-- The `repairs` table. `rows` is the b-tree content in rowid order (for
this schema `id` IS the rowid, so a full scan yields this list); `next_id`
is the AUTOINCREMENT state: the id the next INSERT will receive. -/
structure Store where
  rows : List Row
  next_id : Nat
deriving DecidableEq, Repr

/-- Effect of one successfully executed statement on the table.
UPDATE rewrites the eight named columns of every row matching the id (the
id column itself is not in the SET list); INSERT appends a row carrying the
freshly assigned AUTOINCREMENT id; DELETE removes the rows matching the id. -/
def applyOp (op : Op) (s : Store) : Store :=
  match op with
  | Op.update r =>
      { s with rows := s.rows.map fun x =>
          if x.id = r.id then { x with fields := r.fields } else x }
  | Op.insert f =>
      { rows := s.rows ++ [{ id := s.next_id, fields := f }]
        next_id := s.next_id + 1 }
  | Op.delete v =>
      { s with rows := s.rows.filter fun x => x.id ≠ v }

/-- The `st.session_state.repair_table` widget state passed to
`update_data` as `changes`: an edited-cells mapping keyed by snapshot
position (in dict iteration order), the appended rows in append order, and
the deleted snapshot positions. -/
structure Changes where
  edited_rows : List (Nat × Delta)
  added_rows : List Delta
  deleted_rows : List Nat
deriving DecidableEq, Repr

/-- Which of the three statement blocks of `update_data` an error arose in. -/
inductive Phase where
  | updates : Phase
  | inserts : Phase
  | deletes : Phase
deriving DecidableEq, Repr

/-- An injected sqlite error. -/
structure DbError where
  msg : String
deriving DecidableEq, Repr

/-- An exception propagating out of `update_data`: either a pandas lookup
failure for a snapshot position that is out of bounds (IndexError from
`df.iloc[i]`, KeyError from `df.loc[i, "id"]`), or an sqlite error raised
by one of the issued statements. -/
inductive UpdateErr where
  | badPosition : Phase → Nat → UpdateErr
  | db : Phase → DbError → UpdateErr
deriving DecidableEq, Repr

/-- An sqlite connection mid-call: `committed` is the durable state any
other reader observes (and the state this connection reverts to if it ends
without committing); `pending` is this connection view inside the open
implicit transaction. -/
structure Conn where
  committed : Store
  pending : Store
deriving DecidableEq, Repr

/-- Outcome of `update_data`: normal return with the connection and the
list of SQL statements issued (in issue order), or a propagated exception
with the connection as it stands at the raise point. -/
inductive UResult where
  | ok : Conn → List Op → UResult
  | err : UpdateErr → Conn → UResult
deriving DecidableEq, Repr

/-- The merged-row list built by the `for i, delta in deltas.items()` loop
before the UPDATE block runs: for each edited position, the full snapshot
row at that position with the delta applied on top, keeping the snapshot
id. A position outside the snapshot raises (IndexError from `df.iloc[i]`). -/
def mergedRows (df : List Row) : List (Nat × Delta) → Except UpdateErr (List Row)
  | [] => Except.ok []
  | (i, d) :: rest =>
    match df[i]? with
    | none => Except.error (UpdateErr.badPosition Phase.updates i)
    | some r =>
      match mergedRows df rest with
      | Except.error e => Except.error e
      | Except.ok rs => Except.ok ({ id := r.id, fields := mergeFields r.fields d } :: rs)

/-- One `executemany` block: execute the statements in order against the
pending state; an injected sqlite error aborts the block, returning the
pending state reached so far. -/
def runPhase (failOn : Op → Option DbError) (ph : Phase) :
    List Op → Store → Except (UpdateErr × Store) Store
  | [], s => Except.ok s
  | op :: rest, s =>
    match failOn op with
    | some e => Except.error (UpdateErr.db ph e, s)
    | none => runPhase failOn ph rest (applyOp op s)

/-- The DELETE block: its parameter generator resolves
`int(df.loc[i, "id"])` lazily, so position resolution interleaves with
execution; a bad position or an injected error aborts mid-block. Returns
the final pending state and the DELETE statements issued. -/
def runDeletes (failOn : Op → Option DbError) (df : List Row) :
    List Nat → Store → Except (UpdateErr × Store) (Store × List Op)
  | [], s => Except.ok (s, [])
  | i :: rest, s =>
    match df[i]? with
    | none => Except.error (UpdateErr.badPosition Phase.deletes i, s)
    | some r =>
      match failOn (Op.delete r.id) with
      | some e => Except.error (UpdateErr.db Phase.deletes e, s)
      | none =>
        match runDeletes failOn df rest (applyOp (Op.delete r.id) s) with
        | Except.error es => Except.error es
        | Except.ok (s2, tr) => Except.ok (s2, Op.delete r.id :: tr)

/-- `update_data(conn, df, changes)` (streamlit_app.py lines 99-146).
`db` is the committed database when the call starts (the connection has no
open transaction at entry, so pending = committed). The three statement
blocks run in source order: UPDATE from `edited_rows` (the merged-row list
is built fully before the block executes), INSERT from `added_rows`, DELETE
from `deleted_rows` (ids resolved from the snapshot `df`); only then does
`conn.commit()` publish the pending state. The empty-collection `if` guards
of the source are behaviourally identical to running an empty block. In the
app the `changes` argument and `st.session_state.repair_table` are the same
object, so both reads in the source see the `edited_rows` given here. -/
def update_data (failOn : Op → Option DbError) (db : Store) (df : List Row)
    (changes : Changes) : UResult :=
  match mergedRows df changes.edited_rows with
  | Except.error e => UResult.err e { committed := db, pending := db }
  | Except.ok urows =>
    match runPhase failOn Phase.updates (urows.map Op.update) db with
    | Except.error (e, p) => UResult.err e { committed := db, pending := p }
    | Except.ok p1 =>
      match runPhase failOn Phase.inserts
          (changes.added_rows.map fun d => Op.insert (addedToFields d)) p1 with
      | Except.error (e, p) => UResult.err e { committed := db, pending := p }
      | Except.ok p2 =>
        match runDeletes failOn df changes.deleted_rows p2 with
        | Except.error (e, p) => UResult.err e { committed := db, pending := p }
        | Except.ok (p3, delOps) =>
          UResult.ok { committed := p3, pending := p3 }
            ((urows.map Op.update)
              ++ (changes.added_rows.map fun d => Op.insert (addedToFields d))
              ++ delOps)

/-- The `SELECT * FROM repairs` full scan: the b-tree content in rowid
order. -/
def selectAll (s : Store) : List Row := s.rows

/-- `load_data(conn)` (streamlit_app.py lines 74-97): on a successful scan
it returns the rows as a dataframe; on any store error the `except` branch
displays the error with `st.error` and returns an empty dataframe, so the
caller receives an empty table instead of the error. -/
def load_data (scan : Except DbError (List Row)) : List Row :=
  match scan with
  | Except.ok rows => rows
  | Except.error _ => []

/-- A pending edit set with all three collections empty. -/
def emptyChanges : Changes :=
  { edited_rows := [], added_rows := [], deleted_rows := [] }

/-- The fault-free oracle: no issued statement raises. -/
def noFail : Op → Option DbError := fun _ => none

/-- Well-formedness of the table, true of every state sqlite can reach:
the b-tree scan is strictly increasing in rowid, and AUTOINCREMENT never
hands out an id at or below one already present. -/
def Store.wf (s : Store) : Prop :=
  s.rows.Pairwise (fun a b => a.id < b.id) ∧ ∀ r ∈ s.rows, r.id < s.next_id

/-- Lookup by primary key: the first scanned row with the given id. -/
def getById (s : Store) (v : Nat) : Option Row :=
  s.rows.find? fun r => r.id == v

/-- Pure replay of a statement list. -/
def runAll (ops : List Op) (s : Store) : Store :=
  ops.foldl (fun t op => applyOp op t) s

/-- Resolution of the deleted positions against the snapshot, in order
(`int(df.loc[i, "id"]) for i in changes["deleted_rows"]`). -/
def resolveIds (df : List Row) : List Nat → Option (List Nat)
  | [] => some []
  | i :: rest =>
    match df[i]? with
    | none => none
    | some r => (resolveIds df rest).map fun ids => r.id :: ids

/-- The ids and null fields freshly assigned to a run of INSERTs starting
from AUTOINCREMENT state n. -/
def freshRows (n : Nat) : List Delta → List Row
  | [] => []
  | d :: rest => { id := n, fields := addedToFields d } :: freshRows (n + 1) rest

/-- The first row of the seeded sample catalog. -/
def seedRow1 : Row :=
  Row.mk 1 (Fields.mk (Val.text "Engine Oil Change") (Val.real 60000)
    (Val.real 10000) (Val.real 40000) (Val.int 35) (Val.int 10) (Val.int 10)
    (Val.text "Engine oil replacement"))

/-- The sample catalog seeded by `initialize_data` into a freshly created
database: eight rows, ids 1 through 8 assigned by AUTOINCREMENT. -/
def seedRows : List Row :=
  [ seedRow1
  , Row.mk 2 (Fields.mk (Val.text "Brake Pad Replacement") (Val.real 100000)
      (Val.real 20000) (Val.real 60000) (Val.int 20) (Val.int 8) (Val.int 10)
      (Val.text "Brake pad replacement service"))
  , Row.mk 3 (Fields.mk (Val.text "Spark Plug Replacement") (Val.real 20000)
      (Val.real 5000) (Val.real 10000) (Val.int 30) (Val.int 12) (Val.int 5)
      (Val.text "Replacement of spark plug"))
  , Row.mk 4 (Fields.mk (Val.text "Tire Replacement (Front)") (Val.real 120000)
      (Val.real 10000) (Val.real 90000) (Val.int 12) (Val.int 5) (Val.int 5)
      (Val.text "Replacement of front tire"))
  , Row.mk 5 (Fields.mk (Val.text "Tire Replacement (Rear)") (Val.real 150000)
      (Val.real 10000) (Val.real 110000) (Val.int 10) (Val.int 5) (Val.int 5)
      (Val.text "Replacement of rear tire"))
  , Row.mk 6 (Fields.mk (Val.text "Battery Replacement") (Val.real 250000)
      (Val.real 15000) (Val.real 200000) (Val.int 8) (Val.int 3) (Val.int 3)
      (Val.text "Replacement of battery"))
  , Row.mk 7 (Fields.mk (Val.text "Chain Replacement") (Val.real 80000)
      (Val.real 10000) (Val.real 50000) (Val.int 15) (Val.int 7) (Val.int 5)
      (Val.text "Chain replacement service"))
  , Row.mk 8 (Fields.mk (Val.text "Headlight Replacement") (Val.real 60000)
      (Val.real 5000) (Val.real 40000) (Val.int 10) (Val.int 5) (Val.int 5)
      (Val.text "Headlight replacement")) ]

/-- The seeded database state: the eight sample rows with AUTOINCREMENT
standing above every seeded id. -/
def seedStore : Store := { rows := seedRows, next_id := 9 }

/-- A balance-sheet row in one of the `Assets`, `Liabilities` or `Equity`
tables of finance_data.db: AUTOINCREMENT id, name TEXT, value REAL. -/
structure BSRow where
  id : Nat
  name : Val
  value : Val
deriving DecidableEq, Repr

/-- One balance-sheet table together with its AUTOINCREMENT state. A
`DELETE FROM` with no WHERE clause removes the rows but does not reset the
sequence (sqlite keeps it in sqlite_sequence), so ids keep growing across
saves. -/
structure BSTable where
  rows : List BSRow
  next_id : Nat
deriving DecidableEq, Repr

/-- `DELETE FROM <table>`: every row removed, AUTOINCREMENT untouched. -/
def bsDeleteAll (t : BSTable) : BSTable := { t with rows := [] }

/-- `INSERT INTO <table> (name, value) VALUES (?, ?)`: the id column is
omitted and assigned fresh by AUTOINCREMENT. -/
def bsInsert (t : BSTable) (p : Val × Val) : BSTable :=
  { rows := t.rows ++ [BSRow.mk t.next_id p.1 p.2], next_id := t.next_id + 1 }

/-- The finance_data.db schema created by `create_balance_sheet_tables`. -/
structure BalanceDb where
  assets : BSTable
  liabilities : BSTable
  equity : BSTable
deriving DecidableEq, Repr

/-- The per-table body of `update_balance_sheet_data`: DELETE FROM the
table, then re-INSERT every row of the session dataframe in order. -/
def saveTable (t : BSTable) (data : List (Val × Val)) : BSTable :=
  data.foldl bsInsert (bsDeleteAll t)

/-- `update_balance_sheet_data()` (streamlit_app.py lines 213-237): the
three session dataframes replace the three tables wholesale; one commit at
the end publishes all of it. -/
def update_balance_sheet_data (db : BalanceDb)
    (assets liabilities equity : List (Val × Val)) : BalanceDb :=
  { assets := saveTable db.assets assets
    liabilities := saveTable db.liabilities liabilities
    equity := saveTable db.equity equity }

/-- The id/name/value rows a run of balance-sheet INSERTs starting from
AUTOINCREMENT state n produces. -/
def freshBS (n : Nat) : List (Val × Val) → List BSRow
  | [] => []
  | p :: rest => BSRow.mk n p.1 p.2 :: freshBS (n + 1) rest

/-- AUTOINCREMENT well-formedness of a balance-sheet table: no stored id at
or above the sequence state. -/
def BSTable.wf (t : BSTable) : Prop := ∀ r ∈ t.rows, r.id < t.next_id

/-- The statement trace of a normal `update_data` return. -/
def UResult.trace : UResult → Option (List Op)
  | UResult.ok _ tr => some tr
  | UResult.err _ _ => none

/-- A fault oracle raising a disk error on every DELETE statement. -/
def failOnDelete : Op → Option DbError := fun op =>
  match op with
  | Op.delete _ => some (DbError.mk "disk full")
  | _ => none

/-- A concrete edited-cells delta: set units_left to 7, touch nothing
else. -/
def wEditDelta : Delta :=
  Delta.mk none none none none none (some (Val.int 7)) none none

/-- A concrete added row: item_name and price set, the other six columns
unset. -/
def wAddDelta : Delta :=
  Delta.mk (some (Val.text "New Filter")) (some (Val.real 15000))
    none none none none none none

/-- A pending edit set touching all three collections: edit position 0,
append one row, delete position 1. -/
def wChanges : Changes := Changes.mk [(0, wEditDelta)] [wAddDelta] [1]

/-- A pending edit set in which position 0 is both edited and deleted. -/
def ovChanges : Changes := Changes.mk [(0, wEditDelta)] [] [0]

/-- A pending edit set that only deletes position 0. -/
def delChanges : Changes := Changes.mk [] [] [0]

/-- A pending edit set deleting a position outside the eight-row
snapshot. -/
def oobChanges : Changes := Changes.mk [] [] [99]

/-- The first seeded row with the concrete edit delta merged on top. -/
def wMergedRow : Row := Row.mk 1 (mergeFields seedRow1.fields wEditDelta)

/-- The statement trace the wChanges run issues: the UPDATE block, the
INSERT block, then the DELETE of the id resolved for position 1. -/
def wTrace : List Op :=
  [Op.update wMergedRow, Op.insert (addedToFields wAddDelta), Op.delete 2]

/-- The committed store after the wChanges run. -/
def wStore : Store := runAll wTrace seedStore

/-- The statement trace of the overlapping edit-and-delete run. -/
def ovTrace : List Op := [Op.update wMergedRow, Op.delete 1]

/-- The committed store after the overlapping run. -/
def ovStore : Store := runAll ovTrace seedStore

/-- The UPDATE and INSERT applied to the seed store: the pending state
reached just before the failing DELETE of the C1 witness run. -/
def failStore : Store :=
  runAll [Op.update wMergedRow, Op.insert (addedToFields wAddDelta)] seedStore

/-- A small concrete balance-sheet database with rows left over from an
earlier save. -/
def wBalanceDb : BalanceDb :=
  BalanceDb.mk
    (BSTable.mk [BSRow.mk 1 (Val.text "Land") (Val.real 200000)] 2)
    (BSTable.mk [] 1)
    (BSTable.mk [BSRow.mk 1 (Val.text "Capital") (Val.real 50000)] 2)

/-- Concrete session data for the Assets table. -/
def wAssetsData : List (Val × Val) :=
  [(Val.text "Land", Val.real 200000), (Val.text "Building", Val.real 288000)]

/-- Concrete session data for the Liabilities table. -/
def wLiabData : List (Val × Val) := [(Val.text "Creditors", Val.real 935550)]

/-- Concrete session data for the Equity table. -/
def wEquityData : List (Val × Val) := [(Val.text "Capital", Val.real 50000)]

/-- Replaying no statements is the identity. -/
theorem runAll_nil (s : Store) : runAll [] s = s := rfl

/-- Replaying a statement list one step at a time. -/
theorem runAll_cons (op : Op) (ops : List Op) (s : Store) :
    runAll (op :: ops) s = runAll ops (applyOp op s) := rfl

/-- Replaying a concatenation replays the pieces in order. -/
theorem runAll_append (l1 l2 : List Op) (s : Store) :
    runAll (l1 ++ l2) s = runAll l2 (runAll l1 s) :=
  List.foldl_append _ _ l1 l2

/-- An UPDATE statement rewrites fields only: the scanned id sequence is
untouched. -/
theorem applyOp_update_ids (u : Row) (s : Store) :
    (applyOp (Op.update u) s).rows.map Row.id = s.rows.map Row.id := by
  simp only [applyOp, List.map_map]
  refine List.map_congr_left ?_
  intro x _
  by_cases hx : x.id = u.id
  · simp [Function.comp, hx]
  · simp [Function.comp, hx]

/-- An UPDATE statement leaves the AUTOINCREMENT state alone. -/
theorem applyOp_update_next (u : Row) (s : Store) :
    (applyOp (Op.update u) s).next_id = s.next_id := rfl

/-- A run of UPDATE statements touches neither the id sequence nor the
AUTOINCREMENT state. -/
theorem runAll_updates_ids (us : List Row) (s : Store) :
    (runAll (us.map Op.update) s).rows.map Row.id = s.rows.map Row.id ∧
    (runAll (us.map Op.update) s).next_id = s.next_id := by
  induction us generalizing s with
  | nil => exact ⟨rfl, rfl⟩
  | cons u rest ih =>
      refine ⟨((ih (applyOp (Op.update u) s)).1).trans (applyOp_update_ids u s), ?_⟩
      exact (ih (applyOp (Op.update u) s)).2

/-- A row found by primary-key lookup carries that key. -/
theorem getById_id (s : Store) (v : Nat) (x : Row) (h : getById s v = some x) :
    x.id = v := by
  have hp := List.find?_some h
  simpa using hp

/-- Primary-key lookup succeeds exactly when the key is among the scanned
ids. -/
theorem getById_isSome_iff (s : Store) (v : Nat) :
    (getById s v).isSome = true ↔ v ∈ s.rows.map Row.id := by
  unfold getById
  rw [List.find?_isSome]
  constructor
  · rintro ⟨x, hx, hpx⟩
    exact List.mem_map.mpr ⟨x, hx, by simpa using hpx⟩
  · rintro h
    obtain ⟨x, hx, hxid⟩ := List.mem_map.mp h
    exact ⟨x, hx, by simp [hxid]⟩

/-- On the row list, the UPDATE rewrite is invisible to lookups for any
other id. -/
theorem find?_id_update_other (u : Row) (v : Nat) (hv : v ≠ u.id) (l : List Row) :
    ((l.map fun x => if x.id = u.id then { x with fields := u.fields } else x).find?
        fun r => r.id == v)
      = l.find? fun r => r.id == v := by
  rw [List.find?_map]
  have hpred : ((fun r : Row => r.id == v) ∘
      fun x => if x.id = u.id then { x with fields := u.fields } else x)
      = fun r : Row => r.id == v := by
    funext x
    by_cases hx : x.id = u.id <;> simp [Function.comp, hx]
  rw [hpred]
  cases hf : l.find? fun r => r.id == v with
  | none => rfl
  | some x0 =>
      have hx0 : x0.id = v := by simpa using List.find?_some hf
      have : ¬ x0.id = u.id := by rw [hx0]; exact hv
      simp [this]

/-- On the row list, the UPDATE rewrite replaces the fields of the row its
own id finds. -/
theorem find?_id_update_self (u : Row) (l : List Row) :
    ((l.map fun x => if x.id = u.id then { x with fields := u.fields } else x).find?
        fun r => r.id == u.id)
      = (l.find? fun r => r.id == u.id).map fun x => { x with fields := u.fields } := by
  rw [List.find?_map]
  have hpred : ((fun r : Row => r.id == u.id) ∘
      fun x => if x.id = u.id then { x with fields := u.fields } else x)
      = fun r : Row => r.id == u.id := by
    funext x
    by_cases hx : x.id = u.id <;> simp [Function.comp, hx]
  rw [hpred]
  cases hf : l.find? fun r => r.id == u.id with
  | none => rfl
  | some x0 =>
      have hx0 : x0.id = u.id := by simpa using List.find?_some hf
      simp [hx0]

/-- Store-level version of `find?_id_update_other`. -/
theorem getById_update_other (u : Row) (s : Store) (v : Nat) (hv : v ≠ u.id) :
    getById (applyOp (Op.update u) s) v = getById s v :=
  find?_id_update_other u v hv s.rows

/-- Store-level version of `find?_id_update_self`. -/
theorem getById_update_self (u : Row) (s : Store) :
    getById (applyOp (Op.update u) s) u.id
      = (getById s u.id).map fun x => { x with fields := u.fields } :=
  find?_id_update_self u s.rows

/-- A run of UPDATE statements none of which target v is invisible to a
lookup of v. -/
theorem getById_runAll_updates_other (us : List Row) (v : Nat) (s : Store)
    (h : ∀ u ∈ us, u.id ≠ v) :
    getById (runAll (us.map Op.update) s) v = getById s v := by
  induction us generalizing s with
  | nil => rfl
  | cons u rest ih =>
      rw [List.map_cons, runAll_cons]
      rw [ih (applyOp (Op.update u) s) fun w hw => h w (List.mem_cons_of_mem _ hw)]
      exact getById_update_other u s v
        fun hvv => (h u (List.mem_cons_self u rest)) hvv.symm

/-- A run of UPDATE statements in which position k targets id u0.id and no
later statement targets it again leaves the row at u0.id holding exactly
the fields of the k-th statement. -/
theorem getById_runAll_updates_at (us : List Row) (k : Nat) (u0 : Row) (s : Store)
    (hk : us[k]? = some u0)
    (hafter : ∀ k2 u2, k < k2 → us[k2]? = some u2 → u2.id ≠ u0.id)
    (hpres : u0.id ∈ s.rows.map Row.id) :
    getById (runAll (us.map Op.update) s) u0.id = some u0 := by
  induction us generalizing k s with
  | nil => simp at hk
  | cons u rest ih =>
      cases k with
      | zero =>
          rw [List.getElem?_cons_zero] at hk
          obtain rfl : u = u0 := by injection hk
          rw [List.map_cons, runAll_cons]
          have hrest : ∀ w ∈ rest, w.id ≠ u.id := by
            intro w hw
            obtain ⟨k2, hk2⟩ := List.mem_iff_getElem?.mp hw
            exact hafter (k2 + 1) w (Nat.succ_pos k2) (by simpa using hk2)
          rw [getById_runAll_updates_other rest u.id _ hrest]
          rw [getById_update_self u s]
          obtain ⟨x, hx⟩ :=
            Option.isSome_iff_exists.mp ((getById_isSome_iff s u.id).mpr hpres)
          rw [hx]
          have hxid : x.id = u.id := getById_id s u.id x hx
          cases u with
          | mk i0 f0 => cases x with
            | mk xi xf => simp_all
      | succ k1 =>
          rw [List.getElem?_cons_succ] at hk
          rw [List.map_cons, runAll_cons]
          refine ih k1 (applyOp (Op.update u) s) hk ?_ ?_
          · intro k2 u2 hlt h2
            exact hafter (k2 + 1) u2 (Nat.succ_lt_succ hlt) (by simpa using h2)
          · rw [applyOp_update_ids]
            exact hpres

/-- Every id freshly assigned by a run of INSERTs is at least the starting
AUTOINCREMENT state. -/
theorem freshRows_id_ge (n : Nat) (ds : List Delta) (r : Row)
    (h : r ∈ freshRows n ds) : n ≤ r.id := by
  induction ds generalizing n with
  | nil => simp [freshRows] at h
  | cons d rest ih =>
      rw [freshRows] at h
      rcases List.mem_cons.mp h with h | h
      · subst h; exact Nat.le_refl n
      · exact Nat.le_of_succ_le (ih (n + 1) h)

/-- Looking up the id assigned to the k-th INSERT of a run finds exactly
that freshly inserted row. -/
theorem freshRows_find? (ds : List Delta) (n k : Nat) :
    ((freshRows n ds).find? fun r => r.id == n + k)
      = (ds[k]?).map fun d => Row.mk (n + k) (addedToFields d) := by
  induction ds generalizing n k with
  | nil => simp [freshRows]
  | cons d rest ih =>
      cases k with
      | zero =>
          rw [freshRows]
          rw [List.find?_cons_of_pos _ (by simp)]
          simp
      | succ k1 =>
          rw [freshRows]
          rw [List.find?_cons_of_neg _ (by simp)]
          have hn : n + (k1 + 1) = (n + 1) + k1 := by omega
          simp only [hn, List.getElem?_cons_succ]
          exact ih (n + 1) k1

/-- A run of INSERT statements appends the freshly assigned rows and
advances AUTOINCREMENT by the row count. -/
theorem runAll_inserts (ds : List Delta) (s : Store) :
    runAll (ds.map fun d => Op.insert (addedToFields d)) s
      = Store.mk (s.rows ++ freshRows s.next_id ds) (s.next_id + ds.length) := by
  induction ds generalizing s with
  | nil => simp [runAll, freshRows]
  | cons d rest ih =>
      rw [List.map_cons, runAll_cons]
      rw [ih (applyOp (Op.insert (addedToFields d)) s)]
      simp only [applyOp, freshRows]
      congr 1
      · simp [List.append_assoc]
      · simp
        omega

/-- A run of DELETE statements filters out exactly the targeted ids and
leaves AUTOINCREMENT alone. -/
theorem runAll_deletes (ids : List Nat) (s : Store) :
    runAll (ids.map Op.delete) s
      = Store.mk (s.rows.filter fun x => decide (x.id ∉ ids)) s.next_id := by
  induction ids generalizing s with
  | nil =>
      simp only [List.map_nil, runAll_nil]
      cases s with
      | mk rows n =>
          congr 1
          refine (List.filter_eq_self.mpr ?_).symm
          intro a _
          simp
  | cons v rest ih =>
      rw [List.map_cons, runAll_cons, ih]
      simp only [applyOp]
      congr 1
      rw [List.filter_filter]
      refine List.filter_congr ?_
      intro x _
      by_cases h1 : x.id = v <;> by_cases h2 : x.id ∈ rest <;>
        simp [h1, h2, List.mem_cons]

/-- Filtering by a predicate on the id commutes with projecting the id. -/
theorem map_id_filter (p : Nat → Bool) (l : List Row) :
    ((l.filter fun x => p x.id).map Row.id) = (l.map Row.id).filter p := by
  induction l with
  | nil => rfl
  | cons x xs ih => by_cases hx : p x.id <;> simp [hx, ih]

/-- Filtering by a weaker predicate does not change what a stronger search
finds. -/
theorem find?_filter_of_imp {α : Type} (p q : α → Bool) (l : List α)
    (h : ∀ x, p x = true → q x = true) :
    (l.filter q).find? p = l.find? p := by
  induction l with
  | nil => rfl
  | cons x xs ih =>
      by_cases hq : q x = true
      · rw [List.filter_cons_of_pos hq]
        by_cases hp : p x = true
        · rw [List.find?_cons_of_pos _ hp, List.find?_cons_of_pos _ hp]
        · rw [List.find?_cons_of_neg _ hp, List.find?_cons_of_neg _ hp]
          exact ih
      · have hp : ¬ p x = true := fun hpx => hq (h x hpx)
        rw [List.filter_cons_of_neg hq, List.find?_cons_of_neg _ hp]
        exact ih

/-- A statement block that returns normally has executed exactly its
statements, in order, on the pending state. -/
theorem runPhase_ok (failOn : Op → Option DbError) (ph : Phase) (ops : List Op) :
    ∀ (s s2 : Store), runPhase failOn ph ops s = Except.ok s2 → s2 = runAll ops s := by
  induction ops with
  | nil =>
      intro s s2 h
      simp only [runPhase] at h
      exact (Except.ok.inj h).symm
  | cons op rest ih =>
      intro s s2 h
      simp only [runPhase] at h
      split at h
      · exact absurd h (by simp)
      · exact ih (applyOp op s) s2 h

/-- A DELETE block that returns normally has resolved every listed position
from the snapshot and executed one DELETE per position, in order. -/
theorem runDeletes_ok (failOn : Op → Option DbError) (df : List Row) (l : List Nat) :
    ∀ (s s2 : Store) (tr : List Op),
      runDeletes failOn df l s = Except.ok (s2, tr) →
      ∃ ids, resolveIds df l = some ids ∧ tr = ids.map Op.delete ∧ s2 = runAll tr s := by
  induction l with
  | nil =>
      intro s s2 tr h
      simp only [runDeletes] at h
      obtain ⟨h1, h2⟩ := Prod.mk.injEq .. ▸ Except.ok.inj h
      exact ⟨[], rfl, h2.symm, by rw [← h2, ← h1]; rfl⟩
  | cons i rest ih =>
      intro s s2 tr h
      cases hr : df[i]? with
      | none => simp only [runDeletes, hr] at h; cases h
      | some r =>
          cases hf : failOn (Op.delete r.id) with
          | some e => simp only [runDeletes, hr, hf] at h; cases h
          | none =>
              cases hrec : runDeletes failOn df rest (applyOp (Op.delete r.id) s) with
              | error es => simp only [runDeletes, hr, hf, hrec] at h; cases h
              | ok p =>
                  obtain ⟨s3, tr3⟩ := p
                  simp only [runDeletes, hr, hf, hrec] at h
                  obtain ⟨h1, h2⟩ := Prod.mk.injEq .. ▸ Except.ok.inj h
                  obtain ⟨ids3, hres3, htr3, hs3⟩ :=
                    ih (applyOp (Op.delete r.id) s) s3 tr3 hrec
                  refine ⟨r.id :: ids3, ?_, ?_, ?_⟩
                  · simp only [resolveIds, hr, hres3, Option.map_some']
                  · rw [← h2, htr3, List.map_cons]
                  · rw [← h2, ← h1, hs3, htr3]; rfl

/-- The merged-row list built from the edited cells: entry k carries the
snapshot id of the k-th edited position and the snapshot fields with the
k-th delta merged on top. -/
theorem mergedRows_ok_get (df : List Row) (ed : List (Nat × Delta)) :
    ∀ us, mergedRows df ed = Except.ok us →
      us.length = ed.length ∧
      ∀ (k i : Nat) (d : Delta), ed[k]? = some (i, d) →
        ∃ r : Row, df[i]? = some r ∧
          us[k]? = some (Row.mk r.id (mergeFields r.fields d)) := by
  induction ed with
  | nil =>
      intro us h
      simp only [mergedRows] at h
      obtain rfl := (Except.ok.inj h).symm
      exact ⟨rfl, by intro k i d hk; simp at hk⟩
  | cons p rest ih =>
      intro us h
      obtain ⟨i0, d0⟩ := p
      cases hr0 : df[i0]? with
      | none => simp only [mergedRows, hr0] at h; cases h
      | some r0 =>
          cases hrs : mergedRows df rest with
          | error e => simp only [mergedRows, hr0, hrs] at h; cases h
          | ok rs =>
              simp only [mergedRows, hr0, hrs] at h
              obtain rfl := (Except.ok.inj h).symm
              obtain ⟨hlen, hget⟩ := ih rs hrs
              refine ⟨by simp [hlen], ?_⟩
              intro k i d hk
              cases k with
              | zero =>
                  rw [List.getElem?_cons_zero] at hk
                  obtain ⟨rfl, rfl⟩ : i0 = i ∧ d0 = d := by
                    have hp := Option.some.inj hk
                    exact ⟨congrArg Prod.fst hp, congrArg Prod.snd hp⟩
                  exact ⟨r0, hr0, by simp⟩
              | succ k1 =>
                  rw [List.getElem?_cons_succ] at hk
                  obtain ⟨r, hr, hus⟩ := hget k1 i d hk
                  exact ⟨r, hr, by simpa using hus⟩

/-- Every edited position a normal run consumed lies inside the snapshot. -/
theorem mergedRows_ok_bound (df : List Row) (ed : List (Nat × Delta)) :
    ∀ us, mergedRows df ed = Except.ok us → ∀ p ∈ ed, p.1 < df.length := by
  induction ed with
  | nil => intro us _ p hp; simp at hp
  | cons q rest ih =>
      intro us h p hp
      obtain ⟨i0, d0⟩ := q
      cases hr0 : df[i0]? with
      | none => simp only [mergedRows, hr0] at h; cases h
      | some r0 =>
          cases hrs : mergedRows df rest with
          | error e => simp only [mergedRows, hr0, hrs] at h; cases h
          | ok rs =>
              rcases List.mem_cons.mp hp with rfl | hp2
              · exact (List.getElem?_eq_some.mp hr0).1
              · exact ih rs hrs p hp2

/-- Every id a normal DELETE-resolution produced is the snapshot id of one
of the listed positions. -/
theorem resolveIds_ok_mem (df : List Row) (l : List Nat) :
    ∀ ids, resolveIds df l = some ids →
      ∀ v ∈ ids, ∃ i r, i ∈ l ∧ df[i]? = some r ∧ r.id = v := by
  induction l with
  | nil =>
      intro ids h v hv
      simp only [resolveIds] at h
      obtain rfl := (Option.some.inj h).symm
      simp at hv
  | cons i0 rest ih =>
      intro ids h v hv
      cases hr0 : df[i0]? with
      | none => simp only [resolveIds, hr0] at h; cases h
      | some r0 =>
          cases hres : resolveIds df rest with
          | none => simp only [resolveIds, hr0, hres, Option.map_none'] at h; cases h
          | some ids3 =>
              simp only [resolveIds, hr0, hres, Option.map_some'] at h
              obtain rfl := (Option.some.inj h).symm
              rcases List.mem_cons.mp hv with rfl | hv2
              · exact ⟨i0, r0, List.mem_cons_self i0 rest, hr0, rfl⟩
              · obtain ⟨i, r, hi, hr, hid⟩ := ih ids3 hres v hv2
                exact ⟨i, r, List.mem_cons_of_mem i0 hi, hr, hid⟩

/-- Conversely, the snapshot id of every listed position shows up among the
resolved ids. -/
theorem resolveIds_ok_of_mem (df : List Row) (l : List Nat) :
    ∀ ids i r, resolveIds df l = some ids → i ∈ l → df[i]? = some r →
      r.id ∈ ids := by
  induction l with
  | nil => intro ids i r _ hi; simp at hi
  | cons i0 rest ih =>
      intro ids i r h hi hr
      cases hr0 : df[i0]? with
      | none => simp only [resolveIds, hr0] at h; cases h
      | some r0 =>
          cases hres : resolveIds df rest with
          | none => simp only [resolveIds, hr0, hres, Option.map_none'] at h; cases h
          | some ids3 =>
              simp only [resolveIds, hr0, hres, Option.map_some'] at h
              obtain rfl := (Option.some.inj h).symm
              rcases List.mem_cons.mp hi with rfl | hi2
              · have hrr : r0 = r := Option.some.inj (hr0.symm.trans hr)
                rw [← hrr]
                exact List.mem_cons_self r0.id ids3
              · exact List.mem_cons_of_mem r0.id (ih ids3 i r hres hi2 hr)

/-- Every deleted position a normal resolution consumed lies inside the
snapshot. -/
theorem resolveIds_ok_bound (df : List Row) (l : List Nat) :
    ∀ ids, resolveIds df l = some ids → ∀ i ∈ l, i < df.length := by
  induction l with
  | nil => intro ids _ i hi; simp at hi
  | cons i0 rest ih =>
      intro ids h i hi
      cases hr0 : df[i0]? with
      | none => simp only [resolveIds, hr0] at h; cases h
      | some r0 =>
          cases hres : resolveIds df rest with
          | none => simp only [resolveIds, hr0, hres, Option.map_none'] at h; cases h
          | some ids3 =>
              rcases List.mem_cons.mp hi with rfl | hi2
              · exact (List.getElem?_eq_some.mp hr0).1
              · exact ih ids3 hres i hi2

/-- A normal return of `update_data` is fully characterised: merged-row
construction and delete resolution succeeded, the trace is the UPDATE
block, then the INSERT block, then the DELETE block, and the commit
publishes exactly the replay of that trace over the pre-state. -/
theorem update_data_ok_spec (failOn : Op → Option DbError) (db : Store)
    (df : List Row) (changes : Changes) (c : Conn) (tr : List Op)
    (h : update_data failOn db df changes = UResult.ok c tr) :
    ∃ urows dids,
      mergedRows df changes.edited_rows = Except.ok urows ∧
      resolveIds df changes.deleted_rows = some dids ∧
      tr = urows.map Op.update
           ++ (changes.added_rows.map fun d => Op.insert (addedToFields d))
           ++ dids.map Op.delete ∧
      c = Conn.mk (runAll tr db) (runAll tr db) := by
  cases hm : mergedRows df changes.edited_rows with
  | error e => simp only [update_data, hm] at h; cases h
  | ok urows =>
      cases hp1 : runPhase failOn Phase.updates (urows.map Op.update) db with
      | error ep =>
          obtain ⟨e, p⟩ := ep
          simp only [update_data, hm, hp1] at h; cases h
      | ok p1 =>
          cases hp2 : runPhase failOn Phase.inserts
              (changes.added_rows.map fun d => Op.insert (addedToFields d)) p1 with
          | error ep =>
              obtain ⟨e, p⟩ := ep
              simp only [update_data, hm, hp1, hp2] at h; cases h
          | ok p2 =>
              cases hp3 : runDeletes failOn df changes.deleted_rows p2 with
              | error ep =>
                  obtain ⟨e, p⟩ := ep
                  simp only [update_data, hm, hp1, hp2, hp3] at h; cases h
              | ok pr =>
                  obtain ⟨p3, delOps⟩ := pr
                  simp only [update_data, hm, hp1, hp2, hp3] at h
                  injection h with hc htr
                  obtain ⟨dids, hres, hdel, hs3⟩ :=
                    runDeletes_ok failOn df changes.deleted_rows p2 p3 delOps hp3
                  have h1 : p1 = runAll (urows.map Op.update) db :=
                    runPhase_ok failOn Phase.updates (urows.map Op.update) db p1 hp1
                  have h2 : p2 = runAll
                      (changes.added_rows.map fun d => Op.insert (addedToFields d)) p1 :=
                    runPhase_ok failOn Phase.inserts _ p1 p2 hp2
                  have hrun : runAll tr db = p3 := by
                    rw [← htr, hdel, runAll_append, runAll_append]
                    rw [hdel, h2, h1] at hs3
                    exact hs3.symm
                  refine ⟨urows, dids, rfl, hres, ?_, ?_⟩
                  · rw [← htr, hdel]
                  · rw [← hc, hrun]

/-- The committed table a normal `update_data` produces: the UPDATE block
applied to the pre-state, the freshly inserted rows appended, the rows
whose id was resolved for deletion filtered out, and AUTOINCREMENT
advanced by the number of inserts. -/
theorem update_data_final (failOn : Op → Option DbError) (db : Store)
    (df : List Row) (changes : Changes) (c : Conn) (tr : List Op)
    (h : update_data failOn db df changes = UResult.ok c tr) :
    ∃ urows dids,
      mergedRows df changes.edited_rows = Except.ok urows ∧
      resolveIds df changes.deleted_rows = some dids ∧
      c.committed.rows
        = ((runAll (urows.map Op.update) db).rows
            ++ freshRows db.next_id changes.added_rows).filter
          (fun x => decide (x.id ∉ dids)) ∧
      c.committed.next_id = db.next_id + changes.added_rows.length := by
  obtain ⟨urows, dids, hm, hres, htr, hc⟩ :=
    update_data_ok_spec failOn db df changes c tr h
  refine ⟨urows, dids, hm, hres, ?_, ?_⟩
  · subst htr
    subst hc
    show (runAll _ db).rows = _
    rw [runAll_append, runAll_append]
    rw [runAll_inserts, runAll_deletes]
    have hnext : (runAll (urows.map Op.update) db).next_id = db.next_id :=
      (runAll_updates_ids urows db).2
    rw [hnext]
  · subst htr
    subst hc
    show (runAll _ db).next_id = _
    rw [runAll_append, runAll_append]
    rw [runAll_inserts, runAll_deletes]
    show (runAll (urows.map Op.update) db).next_id + changes.added_rows.length
        = db.next_id + changes.added_rows.length
    rw [(runAll_updates_ids urows db).2]

/-- Every executed statement preserves table well-formedness. -/
theorem applyOp_wf (op : Op) (s : Store) (h : s.wf) : (applyOp op s).wf := by
  obtain ⟨hp, hb⟩ := h
  cases op with
  | update u =>
      have hid : ∀ x : Row,
          (if x.id = u.id then { x with fields := u.fields } else x).id = x.id := by
        intro x
        by_cases hx : x.id = u.id <;> simp [hx]
      refine ⟨?_, ?_⟩
      · refine List.pairwise_map.mpr ?_
        refine hp.imp ?_
        intro a b hab
        rw [hid a, hid b]
        exact hab
      · intro r hr
        obtain ⟨x, hx, rfl⟩ := List.mem_map.mp hr
        rw [hid x]
        exact hb x hx
  | insert f =>
      refine ⟨?_, ?_⟩
      · refine List.pairwise_append.mpr ⟨hp, List.pairwise_singleton _ _, ?_⟩
        intro a ha b hbm
        rcases List.mem_singleton.mp hbm with rfl
        exact hb a ha
      · intro r hr
        rcases List.mem_append.mp hr with hr1 | hr2
        · exact Nat.lt_trans (hb r hr1) (Nat.lt_succ_self _)
        · rcases List.mem_singleton.mp hr2 with rfl
          exact Nat.lt_succ_self _
  | delete v =>
      refine ⟨List.Pairwise.sublist (List.filter_sublist s.rows) hp, ?_⟩
      intro r hr
      exact hb r (List.mem_filter.mp hr).1

/-- Replaying any statement list preserves table well-formedness. -/
theorem runAll_wf (ops : List Op) (s : Store) (h : s.wf) : (runAll ops s).wf := by
  induction ops generalizing s with
  | nil => exact h
  | cons op rest ih => exact ih (applyOp op s) (applyOp_wf op s h)

/-- A normal `update_data` commits a well-formed table. -/
theorem update_data_ok_wf (failOn : Op → Option DbError) (db : Store)
    (df : List Row) (changes : Changes) (c : Conn) (tr : List Op)
    (h : update_data failOn db df changes = UResult.ok c tr) (hwf : db.wf) :
    c.committed.wf := by
  obtain ⟨urows, dids, hm, hres, htr, hc⟩ :=
    update_data_ok_spec failOn db df changes c tr h
  rw [hc]
  exact runAll_wf tr db hwf

/-- A well-formed scan carries no duplicate ids. -/
theorem wf_ids_nodup (s : Store) (h : s.wf) : (s.rows.map Row.id).Nodup :=
  (List.pairwise_map.mpr h.1).imp Nat.ne_of_lt

/-- Without duplicate ids, primary-key lookup of a member row finds exactly
that row. -/
theorem find?_id_of_nodup (l : List Row) (hnd : (l.map Row.id).Nodup)
    (x : Row) (hx : x ∈ l) :
    (l.find? fun r => r.id == x.id) = some x := by
  induction l with
  | nil => cases hx
  | cons y ys ih =>
      rcases List.mem_cons.mp hx with rfl | hx2
      · exact List.find?_cons_of_pos _ (by simp)
      · have hy : ¬ (y.id == x.id) = true := by
          simp only [beq_iff_eq]
          intro hcontra
          have hmem : x.id ∈ ys.map Row.id := List.mem_map.mpr ⟨x, hx2, rfl⟩
          rw [← hcontra] at hmem
          exact (List.nodup_cons.mp (by simpa using hnd)).1 hmem
        rw [@List.find?_cons_of_neg Row (fun r => r.id == x.id) y ys hy]
        have hnd2 : (∀ z ∈ ys, ¬ z.id = y.id) ∧ (List.map Row.id ys).Nodup := by
          simpa using hnd
        exact ih hnd2.2 hx2

/-- In a well-formed store, lookup by a member row own id returns it. -/
theorem getById_of_mem (s : Store) (h : s.wf) (x : Row) (hx : x ∈ s.rows) :
    getById s x.id = some x :=
  find?_id_of_nodup s.rows (wf_ids_nodup s h) x hx

/-- Without duplicate ids, rows at distinct snapshot positions carry
distinct ids. -/
theorem nodup_ids_getElem_ne (df : List Row) (hnd : (df.map Row.id).Nodup)
    (i j : Nat) (r rj : Row) (hi : df[i]? = some r) (hj : df[j]? = some rj)
    (hij : i ≠ j) : r.id ≠ rj.id := by
  intro hcontra
  apply hij
  have h1 : (df.map Row.id)[i]? = some r.id := by
    rw [List.getElem?_map, hi]; rfl
  have h2 : (df.map Row.id)[j]? = some rj.id := by
    rw [List.getElem?_map, hj]; rfl
  refine List.getElem?_inj ?_ hnd ?_
  · rw [List.length_map]
    exact (List.getElem?_eq_some.mp hi).1
  · rw [h1, h2, hcontra]

/-- C1. If any delete, update or insert issued during `update_data` fails,
the committed (externally observable) database when the exception
propagates is exactly the database from before the call: `conn.commit()` is
only reached after every statement of every block succeeded, so nothing is
partially applied and nothing is committed. -/
theorem update_data_failure_atomic (failOn : Op → Option DbError) (db : Store)
    (df : List Row) (changes : Changes) (e : UpdateErr) (c : Conn)
    (h : update_data failOn db df changes = UResult.err e c) :
    c.committed = db := by
  cases hm : mergedRows df changes.edited_rows with
  | error e2 =>
      simp only [update_data, hm] at h
      injection h with he hcn
      subst hcn
      rfl
  | ok urows =>
      cases hp1 : runPhase failOn Phase.updates (urows.map Op.update) db with
      | error ep =>
          obtain ⟨e2, p⟩ := ep
          simp only [update_data, hm, hp1] at h
          injection h with he hcn
          subst hcn
          rfl
      | ok p1 =>
          cases hp2 : runPhase failOn Phase.inserts
              (changes.added_rows.map fun d => Op.insert (addedToFields d)) p1 with
          | error ep =>
              obtain ⟨e2, p⟩ := ep
              simp only [update_data, hm, hp1, hp2] at h
              injection h with he hcn
              subst hcn
              rfl
          | ok p2 =>
              cases hp3 : runDeletes failOn df changes.deleted_rows p2 with
              | error ep =>
                  obtain ⟨e2, p⟩ := ep
                  simp only [update_data, hm, hp1, hp2, hp3] at h
                  injection h with he hcn
                  subst hcn
                  rfl
              | ok pr =>
                  obtain ⟨p3, delOps⟩ := pr
                  simp only [update_data, hm, hp1, hp2, hp3] at h
                  cases h

/-- C1 witness: a run over the seeded catalog whose DELETE statement
raises. The update and the insert were already applied to the pending
state, yet the committed database is untouched. -/
theorem update_data_failure_atomic_witness :
    (Conn.mk seedStore failStore).committed = seedStore :=
  update_data_failure_atomic failOnDelete seedStore seedRows wChanges
    (UpdateErr.db Phase.deletes (DbError.mk "disk full"))
    (Conn.mk seedStore failStore) (by decide)

/-- C6. Reconciling an empty pending edit set issues no statements and
commits the database unchanged. -/
theorem update_data_noop (failOn : Op → Option DbError) (db : Store)
    (df : List Row) :
    update_data failOn db df emptyChanges = UResult.ok (Conn.mk db db) [] := rfl

/-- C8. `load_data` performs the full scan and hands back the rows in
strictly ascending id order, for every well-formed store state. -/
theorem load_data_sorted_by_id (s : Store) (hwf : s.wf) :
    (load_data (Except.ok (selectAll s))).Pairwise fun a b => a.id < b.id :=
  hwf.1

/-- The seeded catalog is well-formed. -/
theorem seedStore_wf : seedStore.wf := by
  unfold Store.wf
  exact ⟨by decide, by decide⟩

/-- C8 witness: the seeded catalog loads in ascending id order. -/
theorem load_data_sorted_by_id_witness :
    (load_data (Except.ok (selectAll seedStore))).Pairwise
      (fun a b => a.id < b.id) :=
  load_data_sorted_by_id seedStore seedStore_wf

/-- C2 counterexample: on a pending edit set with one edit, one append and
one deletion over the seeded catalog, the statements are issued in the
order UPDATE, INSERT, DELETE, not in the claimed order DELETE, UPDATE,
INSERT. -/
theorem update_data_order_counterexample :
    (update_data noFail seedStore seedRows wChanges).trace
      = some [Op.update wMergedRow, Op.insert (addedToFields wAddDelta),
              Op.delete 2]
    ∧ [Op.update wMergedRow, Op.insert (addedToFields wAddDelta), Op.delete 2]
      ≠ [Op.delete 2, Op.update wMergedRow,
         Op.insert (addedToFields wAddDelta)] := by
  refine ⟨by decide, by decide⟩

/-- C3 counterexample: with position 0 both edited and deleted, the UPDATE
for the id at that position is still issued (followed by the DELETE); it is
not skipped. -/
theorem deletion_precedence_skip_counterexample :
    (update_data noFail seedStore seedRows ovChanges).trace
      = some [Op.update wMergedRow, Op.delete 1]
    ∧ Op.update wMergedRow ∈ [Op.update wMergedRow, Op.delete 1]
    ∧ wMergedRow.id = 1 := by
  refine ⟨by decide, List.mem_cons_self _ _, by decide⟩

/-- C9 counterexample: a store error during load is not returned to the
caller; `load_data` swallows it and hands back an empty table,
indistinguishable from a successful load of an empty store. -/
theorem load_error_swallowed_counterexample :
    load_data (Except.error (DbError.mk "database is locked"))
      = load_data (Except.ok [])
    ∧ load_data (Except.error (DbError.mk "database is locked"))
      = ([] : List Row) :=
  ⟨rfl, rfl⟩

/-- C2 amended: a normal reconcile issues its statements as all UPDATEs
first (one merged row per edited position, resolved against the pre-edit
snapshot, in mapping order), then all INSERTs in original append order,
then all DELETEs (one per deleted position, id resolved from the pre-edit
snapshot, in order). -/
theorem update_data_order (failOn : Op → Option DbError) (db : Store)
    (df : List Row) (changes : Changes) (c : Conn) (tr : List Op)
    (h : update_data failOn db df changes = UResult.ok c tr) :
    ∃ urows dids,
      mergedRows df changes.edited_rows = Except.ok urows ∧
      resolveIds df changes.deleted_rows = some dids ∧
      tr = urows.map Op.update
           ++ (changes.added_rows.map fun d => Op.insert (addedToFields d))
           ++ dids.map Op.delete := by
  obtain ⟨urows, dids, hm, hres, htr, _⟩ :=
    update_data_ok_spec failOn db df changes c tr h
  exact ⟨urows, dids, hm, hres, htr⟩

/-- C2 amended witness: the concrete wChanges run exhibits the
UPDATE-INSERT-DELETE order. -/
theorem update_data_order_witness :
    ∃ urows dids,
      mergedRows seedRows wChanges.edited_rows = Except.ok urows ∧
      resolveIds seedRows wChanges.deleted_rows = some dids ∧
      wTrace = urows.map Op.update
           ++ (wChanges.added_rows.map fun d => Op.insert (addedToFields d))
           ++ dids.map Op.delete :=
  update_data_order noFail seedStore seedRows wChanges
    (Conn.mk wStore wStore) wTrace (by decide)

/-- C3 amended: for a snapshot position that is both deleted and edited,
after a normal reconcile no row carrying that position snapshot id remains
in the committed table. The UPDATE for it is issued, but the DELETE block
runs last, so the deletion wins. -/
theorem deletion_wins (failOn : Op → Option DbError) (db : Store)
    (df : List Row) (changes : Changes) (i : Nat) (r : Row) (c : Conn)
    (tr : List Op)
    (hi : i ∈ changes.deleted_rows) (hr : df[i]? = some r)
    (h : update_data failOn db df changes = UResult.ok c tr) :
    ∀ x ∈ c.committed.rows, x.id ≠ r.id := by
  obtain ⟨urows, dids, hm, hres, hcom, hnext⟩ :=
    update_data_final failOn db df changes c tr h
  intro x hx
  rw [hcom] at hx
  have hmem := List.mem_filter.mp hx
  have hnotin : x.id ∉ dids := by simpa using hmem.2
  have hrid : r.id ∈ dids :=
    resolveIds_ok_of_mem df changes.deleted_rows dids i r hres hi hr
  intro hcontra
  rw [hcontra] at hnotin
  exact hnotin hrid

/-- C3 amended witness: in the overlapping run, no row with the snapshot id
of the doubly-referenced position survives the commit. -/
theorem deletion_wins_witness :
    ((Conn.mk ovStore ovStore).committed.rows.all
      fun x => x.id != seedRow1.id) = true := by
  rw [List.all_eq_true]
  intro x hx
  have hmain := deletion_wins noFail seedStore seedRows ovChanges 0 seedRow1
    (Conn.mk ovStore ovStore) ovTrace (by decide) (by decide) (by decide)
  simpa using hmain x hx

/-- Every id resolved for deletion from the own rows of a well-formed store
lies below its AUTOINCREMENT state. -/
theorem resolveIds_lt_next (db : Store) (l : List Nat) (dids : List Nat)
    (hwf : db.wf) (hres : resolveIds db.rows l = some dids) :
    ∀ v ∈ dids, v < db.next_id := by
  intro v hv
  obtain ⟨i, r, _, hr, rfl⟩ := resolveIds_ok_mem db.rows l dids hres v hv
  exact hwf.2 r (List.getElem?_mem hr)

/-- C4. For a snapshot loaded from a well-formed store, a normal reconcile
leaves the row at an edited (and not deleted) position holding exactly the
snapshot row with the delta columns replaced: every column absent from the
delta keeps its previously persisted value. -/
theorem update_merge_correct (failOn : Op → Option DbError) (db : Store)
    (changes : Changes) (i : Nat) (d : Delta) (r : Row) (c : Conn)
    (tr : List Op)
    (hwf : db.wf)
    (hmem : (i, d) ∈ changes.edited_rows)
    (hkeys : (changes.edited_rows.map Prod.fst).Nodup)
    (hr : db.rows[i]? = some r)
    (hndel : i ∉ changes.deleted_rows)
    (h : update_data failOn db db.rows changes = UResult.ok c tr) :
    getById c.committed r.id = some (Row.mk r.id (mergeFields r.fields d)) := by
  obtain ⟨urows, dids, hm, hres, hcom, hnext⟩ :=
    update_data_final failOn db db.rows changes c tr h
  obtain ⟨hlen, hget⟩ := mergedRows_ok_get db.rows changes.edited_rows urows hm
  have hnd : (db.rows.map Row.id).Nodup := wf_ids_nodup db hwf
  obtain ⟨k, hk⟩ := List.mem_iff_getElem?.mp hmem
  obtain ⟨r2, hr2, hus⟩ := hget k i d hk
  have hre : r2 = r := Option.some.inj (hr2.symm.trans hr)
  rw [hre] at hus
  have hklen : k < changes.edited_rows.length := (List.getElem?_eq_some.mp hk).1
  have hafter : ∀ k2 u2, k < k2 → urows[k2]? = some u2 →
      u2.id ≠ (Row.mk r.id (mergeFields r.fields d)).id := by
    intro k2 u2 hlt h2
    have hk2len : k2 < urows.length := (List.getElem?_eq_some.mp h2).1
    have hk2ed : k2 < changes.edited_rows.length := by
      rw [← hlen]; exact hk2len
    have hed2 : changes.edited_rows[k2]? = some changes.edited_rows[k2] :=
      List.getElem?_eq_some.mpr ⟨hk2ed, rfl⟩
    obtain ⟨r3, hr3, hus3⟩ := hget k2 (changes.edited_rows[k2]).1
      (changes.edited_rows[k2]).2 hed2
    have hu2 : u2 = Row.mk r3.id
        (mergeFields r3.fields (changes.edited_rows[k2]).2) :=
      Option.some.inj (h2.symm.trans hus3)
    have hine : (changes.edited_rows[k2]).1 ≠ i := by
      intro hcontra
      have hkk : (changes.edited_rows.map Prod.fst)[k]? = some i := by
        rw [List.getElem?_map, hk]; rfl
      have hkk2 : (changes.edited_rows.map Prod.fst)[k2]?
          = some (changes.edited_rows[k2]).1 := by
        rw [List.getElem?_map, hed2]; rfl
      have hkeq : k = k2 := by
        refine List.getElem?_inj ?_ hkeys ?_
        · rw [List.length_map]; exact hklen
        · rw [hkk, hkk2, hcontra]
      exact Nat.lt_irrefl k (hkeq ▸ hlt)
    rw [hu2]
    show r3.id ≠ r.id
    exact nodup_ids_getElem_ne db.rows hnd (changes.edited_rows[k2]).1 i r3 r
      hr3 hr hine
  have hpres : (Row.mk r.id (mergeFields r.fields d)).id ∈ db.rows.map Row.id := by
    show r.id ∈ _
    exact List.mem_map.mpr ⟨r, List.getElem?_mem hr, rfl⟩
  have hupd : (runAll (urows.map Op.update) db).rows.find?
      (fun x => x.id == r.id) = some (Row.mk r.id (mergeFields r.fields d)) :=
    getById_runAll_updates_at urows k (Row.mk r.id (mergeFields r.fields d))
      db hus hafter hpres
  have hrnotdel : r.id ∉ dids := by
    intro hin
    obtain ⟨j, rj, hj, hrj, hrjid⟩ :=
      resolveIds_ok_mem db.rows changes.deleted_rows dids hres r.id hin
    have hji : j ≠ i := fun hcontra => hndel (hcontra ▸ hj)
    exact nodup_ids_getElem_ne db.rows hnd j i rj r hrj hr hji hrjid
  have himp : ∀ x : Row, (x.id == r.id) = true →
      (decide (x.id ∉ dids)) = true := by
    intro x hpx
    have hxid : x.id = r.id := by simpa using hpx
    rw [hxid]
    exact decide_eq_true hrnotdel
  show c.committed.rows.find? (fun x => x.id == r.id) = _
  rw [hcom]
  rw [find?_filter_of_imp _ _ _ himp, List.find?_append, hupd]
  rfl

/-- C4 witness: the concrete wChanges run leaves the stored row with id 1
equal to seed row 1 with only units_left replaced. -/
theorem update_merge_correct_witness :
    getById (Conn.mk wStore wStore).committed seedRow1.id
      = some (Row.mk seedRow1.id (mergeFields seedRow1.fields wEditDelta)) :=
  update_merge_correct noFail seedStore wChanges 0 wEditDelta seedRow1
    (Conn.mk wStore wStore) wTrace seedStore_wf (by decide) (by decide)
    (by decide) (by decide) (by decide)

/-- C5. Each appended row is inserted with the id column omitted: the k-th
appended row receives the fresh id next_id + k, which equals no id present
before the call, and every column absent from the appended mapping is bound
to NULL via `addedToFields`, not to 0 and not to the empty string. -/
theorem insert_fresh_and_null (failOn : Op → Option DbError) (db : Store)
    (changes : Changes) (c : Conn) (tr : List Op) (k : Nat) (d : Delta)
    (hwf : db.wf)
    (hk : changes.added_rows[k]? = some d)
    (h : update_data failOn db db.rows changes = UResult.ok c tr) :
    getById c.committed (db.next_id + k)
      = some (Row.mk (db.next_id + k) (addedToFields d))
    ∧ ∀ x ∈ db.rows, x.id ≠ db.next_id + k := by
  obtain ⟨urows, dids, hm, hres, hcom, hnext⟩ :=
    update_data_final failOn db db.rows changes c tr h
  have hfresh : ∀ x ∈ db.rows, x.id ≠ db.next_id + k := by
    intro x hx hcontra
    have hlt := hwf.2 x hx
    omega
  refine ⟨?_, hfresh⟩
  have hnotdel : db.next_id + k ∉ dids := by
    intro hin
    have hlt := resolveIds_lt_next db changes.deleted_rows dids hwf hres _ hin
    omega
  have himp : ∀ x : Row, (x.id == db.next_id + k) = true →
      (decide (x.id ∉ dids)) = true := by
    intro x hpx
    have hxid : x.id = db.next_id + k := by simpa using hpx
    rw [hxid]
    exact decide_eq_true hnotdel
  have hnone : (runAll (urows.map Op.update) db).rows.find?
      (fun x => x.id == db.next_id + k) = none := by
    rw [List.find?_eq_none]
    intro x hx hpx
    have hxid : x.id = db.next_id + k := by simpa using hpx
    have hxin : x.id ∈ (runAll (urows.map Op.update) db).rows.map Row.id :=
      List.mem_map.mpr ⟨x, hx, rfl⟩
    rw [(runAll_updates_ids urows db).1] at hxin
    obtain ⟨y, hy, hyid⟩ := List.mem_map.mp hxin
    have hlt := hwf.2 y hy
    omega
  show c.committed.rows.find? (fun x => x.id == db.next_id + k) = _
  rw [hcom]
  rw [find?_filter_of_imp _ _ _ himp, List.find?_append, hnone]
  show (freshRows db.next_id changes.added_rows).find?
      (fun x => x.id == db.next_id + k) = _
  rw [freshRows_find?, hk]
  rfl

/-- C5 witness: the single appended row of the wChanges run is stored under
the fresh id 9 with its six unset columns NULL, and 9 equals no seeded
id. -/
theorem insert_fresh_and_null_witness :
    getById (Conn.mk wStore wStore).committed (seedStore.next_id + 0)
      = some (Row.mk (seedStore.next_id + 0) (addedToFields wAddDelta))
    ∧ (seedStore.rows.all fun x => x.id != seedStore.next_id + 0) = true := by
  obtain ⟨hget, hall⟩ :=
    insert_fresh_and_null noFail seedStore wChanges (Conn.mk wStore wStore)
      wTrace 0 wAddDelta seedStore_wf (by decide) (by decide)
  refine ⟨hget, ?_⟩
  rw [List.all_eq_true]
  intro x hx
  simpa using hall x hx

/-- C7. A normal reconcile never rewrites an id: the committed id sequence
is exactly the pre-existing ids minus those resolved for deletion, followed
by the freshly assigned insert ids, all at or above the old AUTOINCREMENT
state. The UPDATE statement never touches the id column and the INSERT
statement omits it. -/
theorem reconcile_preserves_ids (failOn : Op → Option DbError) (db : Store)
    (changes : Changes) (c : Conn) (tr : List Op)
    (hwf : db.wf)
    (h : update_data failOn db db.rows changes = UResult.ok c tr) :
    ∃ dids newIds,
      resolveIds db.rows changes.deleted_rows = some dids ∧
      c.committed.rows.map Row.id
        = ((db.rows.map Row.id).filter fun v => decide (v ∉ dids)) ++ newIds ∧
      ∀ v ∈ newIds, db.next_id ≤ v := by
  obtain ⟨urows, dids, hm, hres, hcom, hnext⟩ :=
    update_data_final failOn db db.rows changes c tr h
  refine ⟨dids, (freshRows db.next_id changes.added_rows).map Row.id, hres,
    ?_, ?_⟩
  · rw [hcom]
    rw [map_id_filter (fun v => decide (v ∉ dids))]
    rw [List.map_append, List.filter_append]
    rw [(runAll_updates_ids urows db).1]
    congr 1
    refine List.filter_eq_self.mpr ?_
    intro v hv
    obtain ⟨x, hx, rfl⟩ := List.mem_map.mp hv
    have hge : db.next_id ≤ x.id :=
      freshRows_id_ge db.next_id changes.added_rows x hx
    refine decide_eq_true ?_
    intro hin
    have hlt := resolveIds_lt_next db changes.deleted_rows dids hwf hres x.id hin
    omega
  · intro v hv
    obtain ⟨x, hx, rfl⟩ := List.mem_map.mp hv
    exact freshRows_id_ge db.next_id changes.added_rows x hx

/-- C7 witness: in the wChanges run, the committed id sequence is the
seeded ids minus the deleted id 2, followed by the fresh id 9. -/
theorem reconcile_preserves_ids_witness :
    ∃ dids newIds,
      resolveIds seedStore.rows wChanges.deleted_rows = some dids ∧
      (Conn.mk wStore wStore).committed.rows.map Row.id
        = ((seedStore.rows.map Row.id).filter fun v => decide (v ∉ dids))
          ++ newIds ∧
      ∀ v ∈ newIds, seedStore.next_id ≤ v :=
  reconcile_preserves_ids noFail seedStore wChanges (Conn.mk wStore wStore)
    wTrace seedStore_wf (by decide)

/-- C9 amended: errors inside reconcile do propagate: a pending edit set
referencing a position outside the snapshot (deleted or edited) can never
return normally, the lookup raises before anything is committed. Load,
however, catches store errors and returns an empty table to its caller
instead of the error. -/
theorem error_propagation_amended (failOn : Op → Option DbError) (db : Store)
    (df : List Row) (changes : Changes) (i : Nat)
    (hi : i ∈ changes.deleted_rows ∨ i ∈ changes.edited_rows.map Prod.fst)
    (hoob : df.length ≤ i) :
    (∀ (c : Conn) (tr : List Op),
        update_data failOn db df changes ≠ UResult.ok c tr)
    ∧ ∀ e : DbError, load_data (Except.error e) = [] := by
  refine ⟨?_, fun e => rfl⟩
  intro c tr h
  obtain ⟨urows, dids, hm, hres, _, _⟩ :=
    update_data_ok_spec failOn db df changes c tr h
  rcases hi with hi | hi
  · have hb := resolveIds_ok_bound df changes.deleted_rows dids hres i hi
    omega
  · obtain ⟨⟨i2, d2⟩, hp, hfst⟩ := List.mem_map.mp hi
    have hb := mergedRows_ok_bound df changes.edited_rows urows hm (i2, d2) hp
    have hi2 : i2 = i := hfst
    omega

/-- C9 amended witness: deleting position 99 of the eight-row snapshot
never commits, and a concrete load error yields the empty table. -/
theorem error_propagation_amended_witness :
    update_data noFail seedStore seedRows oobChanges
      ≠ UResult.ok (Conn.mk seedStore seedStore) []
    ∧ load_data (Except.error (DbError.mk "database is locked"))
      = ([] : List Row) := by
  obtain ⟨hne, hload⟩ :=
    error_propagation_amended noFail seedStore seedRows oobChanges 99
      (Or.inl (by decide)) (by decide)
  exact ⟨hne (Conn.mk seedStore seedStore) [],
    hload (DbError.mk "database is locked")⟩

/-- Folding the balance-sheet INSERTs appends exactly the freshly numbered
rows and advances AUTOINCREMENT by the row count. -/
theorem bsFold_rows (data : List (Val × Val)) (l : List BSRow) (n : Nat) :
    data.foldl bsInsert (BSTable.mk l n)
      = BSTable.mk (l ++ freshBS n data) (n + data.length) := by
  induction data generalizing l n with
  | nil => simp [freshBS]
  | cons p rest ih =>
      rw [List.foldl_cons]
      rw [show bsInsert (BSTable.mk l n) p
          = BSTable.mk (l ++ [BSRow.mk n p.1 p.2]) (n + 1) from rfl]
      rw [ih]
      congr 1
      · simp [freshBS, List.append_assoc]
      · simp
        omega

/-- The freshly numbered balance-sheet rows carry exactly the saved
name/value pairs, in order. -/
theorem freshBS_map (n : Nat) (data : List (Val × Val)) :
    (freshBS n data).map (fun r => (r.name, r.value)) = data := by
  induction data generalizing n with
  | nil => rfl
  | cons p rest ih => simp [freshBS, ih]

/-- Every freshly numbered balance-sheet row id is at least the starting
AUTOINCREMENT state. -/
theorem freshBS_id_ge (n : Nat) (data : List (Val × Val)) (r : BSRow)
    (h : r ∈ freshBS n data) : n ≤ r.id := by
  induction data generalizing n with
  | nil => simp [freshBS] at h
  | cons p rest ih =>
      rw [freshBS] at h
      rcases List.mem_cons.mp h with h | h
      · subst h; exact Nat.le_refl n
      · exact Nat.le_of_succ_le (ih (n + 1) h)

/-- Saving one balance-sheet table stores exactly the session data, and
every stored row receives an id never used in the table before. -/
theorem saveTable_spec (t : BSTable) (data : List (Val × Val)) (hw : t.wf) :
    ((saveTable t data).rows.map fun r => (r.name, r.value)) = data
    ∧ ∀ r ∈ (saveTable t data).rows, ∀ r0 ∈ t.rows, r.id ≠ r0.id := by
  have hfold : saveTable t data
      = BSTable.mk (freshBS t.next_id data) (t.next_id + data.length) := by
    show data.foldl bsInsert (BSTable.mk [] t.next_id) = _
    rw [bsFold_rows]
    rfl
  rw [hfold]
  constructor
  · exact freshBS_map t.next_id data
  · intro r hr r0 hr0
    have hge : t.next_id ≤ r.id := freshBS_id_ge t.next_id data r hr
    have hlt : r0.id < t.next_id := hw r0 hr0
    omega

/-- C10. Saving the balance sheet replaces the full contents of the Assets,
Liabilities and Equity tables with the session data, and every stored row
receives a freshly assigned id: no row id of any of the three tables
survives a save. -/
theorem balance_sheet_replace (db : BalanceDb)
    (assets liabilities equity : List (Val × Val))
    (hwA : db.assets.wf) (hwL : db.liabilities.wf) (hwE : db.equity.wf) :
    ((update_balance_sheet_data db assets liabilities equity).assets.rows.map
        fun r => (r.name, r.value)) = assets
    ∧ ((update_balance_sheet_data db assets liabilities
        equity).liabilities.rows.map fun r => (r.name, r.value)) = liabilities
    ∧ ((update_balance_sheet_data db assets liabilities equity).equity.rows.map
        fun r => (r.name, r.value)) = equity
    ∧ (∀ r ∈ (update_balance_sheet_data db assets liabilities
          equity).assets.rows, ∀ r0 ∈ db.assets.rows, r.id ≠ r0.id)
    ∧ (∀ r ∈ (update_balance_sheet_data db assets liabilities
          equity).liabilities.rows, ∀ r0 ∈ db.liabilities.rows, r.id ≠ r0.id)
    ∧ (∀ r ∈ (update_balance_sheet_data db assets liabilities
          equity).equity.rows, ∀ r0 ∈ db.equity.rows, r.id ≠ r0.id) := by
  obtain ⟨hA1, hA2⟩ := saveTable_spec db.assets assets hwA
  obtain ⟨hL1, hL2⟩ := saveTable_spec db.liabilities liabilities hwL
  obtain ⟨hE1, hE2⟩ := saveTable_spec db.equity equity hwE
  exact ⟨hA1, hL1, hE1, hA2, hL2, hE2⟩

/-- C10 witness: a concrete save over a database holding leftover rows with
ids 1 replaces all contents and reuses no id. -/
theorem balance_sheet_replace_witness :
    ((update_balance_sheet_data wBalanceDb wAssetsData wLiabData
        wEquityData).assets.rows.map fun r => (r.name, r.value)) = wAssetsData
    ∧ ((update_balance_sheet_data wBalanceDb wAssetsData wLiabData
        wEquityData).liabilities.rows.map fun r => (r.name, r.value))
      = wLiabData
    ∧ ((update_balance_sheet_data wBalanceDb wAssetsData wLiabData
        wEquityData).equity.rows.map fun r => (r.name, r.value)) = wEquityData
    ∧ ((update_balance_sheet_data wBalanceDb wAssetsData wLiabData
        wEquityData).assets.rows.all fun r =>
          wBalanceDb.assets.rows.all fun r0 => r.id != r0.id) = true
    ∧ ((update_balance_sheet_data wBalanceDb wAssetsData wLiabData
        wEquityData).liabilities.rows.all fun r =>
          wBalanceDb.liabilities.rows.all fun r0 => r.id != r0.id) = true
    ∧ ((update_balance_sheet_data wBalanceDb wAssetsData wLiabData
        wEquityData).equity.rows.all fun r =>
          wBalanceDb.equity.rows.all fun r0 => r.id != r0.id) = true := by
  obtain ⟨h1, h2, h3, h4, h5, h6⟩ :=
    balance_sheet_replace wBalanceDb wAssetsData wLiabData wEquityData
      (by unfold BSTable.wf; decide) (by unfold BSTable.wf; decide)
      (by unfold BSTable.wf; decide)
  refine ⟨h1, h2, h3, ?_, ?_, ?_⟩
  · rw [List.all_eq_true]
    intro r hr
    rw [List.all_eq_true]
    intro r0 hr0
    simpa using h4 r hr r0 hr0
  · rw [List.all_eq_true]
    intro r hr
    rw [List.all_eq_true]
    intro r0 hr0
    simpa using h5 r hr r0 hr0
  · rw [List.all_eq_true]
    intro r hr
    rw [List.all_eq_true]
    intro r0 hr0
    simpa using h6 r hr r0 hr0

end InventoryTracker
